import Mathlib

/-!
Verification of the pantry ingestion pipeline (cmd/scanner/scanner.go).

Each definition is a shallow embedding of a function or code fragment of
the scanner; theorems settle the specification claims against it.
Bytes are modelled as `Nat`, timestamps as `Nat`, path and file-name
strings as `List Char`, and the per-worker database connection as an
explicit store value threaded through the functions that use it.
-/

namespace Pantry

/-! ### Lexical path handling

`goClean` models Go's `path/filepath.Clean` for slash-separated paths
(the scanner runs where `os.PathSeparator` is `/`), and `goJoin` models
`filepath.Join(a, b)`, which joins the non-empty parts with `/` and
cleans the result. -/

/-- Split a character list on `/`, as `strings.Split` does: the empty
input yields one empty field, and every separator starts a new field. -/
def splitSlash : List Char → List (List Char)
  | [] => [[]]
  | c :: cs =>
    let r := splitSlash cs
    if c = '/' then [] :: r
    else
      match r with
      | h :: t => (c :: h) :: t
      | [] => [[c]]

/-- Join path elements with `/`. -/
def interSlash : List (List Char) → List Char
  | [] => []
  | [x] => x
  | x :: xs => x ++ '/' :: interSlash xs

/-- One element step of `filepath.Clean`: skip empty and `.` elements,
pop on `..` (kept literally when not rooted and nothing to pop), push
anything else.  The accumulator holds the output elements reversed. -/
def cleanStep (rooted : Bool) (acc : List (List Char)) (e : List Char) : List (List Char) :=
  if e = [] || e = ['.'] then acc
  else if e = ['.', '.'] then
    match acc with
    | [] => if rooted then [] else [['.', '.']]
    | a :: rest => if a = ['.', '.'] then ['.', '.'] :: a :: rest else rest
  else e :: acc

/-- Model of Go `filepath.Clean` on slash paths. -/
def goClean (p : List Char) : List Char :=
  if p = [] then ['.'] else
  let rooted := match p with | '/' :: _ => true | _ => false
  let elems := (splitSlash p).foldl (cleanStep rooted) []
  let body := interSlash elems.reverse
  if rooted then '/' :: body
  else if body = [] then ['.'] else body

/-- Model of Go `filepath.Join(a, b)`: empty parts are dropped, the rest
is joined with `/` and cleaned. -/
def goJoin (a b : List Char) : List Char :=
  if a = [] && b = [] then []
  else if a = [] then goClean b
  else if b = [] then goClean a
  else goClean (a ++ '/' :: b)

/-! ### UTF-8 validity (Go `unicode/utf8.Valid`) -/

/-- A UTF-8 continuation byte. -/
def isCont (b : Nat) : Bool := 0x80 ≤ b && b ≤ 0xBF

/-- Model of Go `utf8.Valid` over a byte sequence: standard RFC 3629
validation, rejecting overlong forms, surrogates and values above
U+10FFFF. -/
def utf8Valid : List Nat → Bool
  | [] => true
  | b :: rest =>
    if b ≤ 0x7F then utf8Valid rest
    else if 0xC2 ≤ b && b ≤ 0xDF then
      match rest with
      | c1 :: rest' => isCont c1 && utf8Valid rest'
      | [] => false
    else if b = 0xE0 then
      match rest with
      | c1 :: c2 :: rest' => (0xA0 ≤ c1 && c1 ≤ 0xBF) && isCont c2 && utf8Valid rest'
      | _ => false
    else if (0xE1 ≤ b && b ≤ 0xEC) || b = 0xEE || b = 0xEF then
      match rest with
      | c1 :: c2 :: rest' => isCont c1 && isCont c2 && utf8Valid rest'
      | _ => false
    else if b = 0xED then
      match rest with
      | c1 :: c2 :: rest' => (0x80 ≤ c1 && c1 ≤ 0x9F) && isCont c2 && utf8Valid rest'
      | _ => false
    else if b = 0xF0 then
      match rest with
      | c1 :: c2 :: c3 :: rest' =>
        (0x90 ≤ c1 && c1 ≤ 0xBF) && isCont c2 && isCont c3 && utf8Valid rest'
      | _ => false
    else if 0xF1 ≤ b && b ≤ 0xF3 then
      match rest with
      | c1 :: c2 :: c3 :: rest' => isCont c1 && isCont c2 && isCont c3 && utf8Valid rest'
      | _ => false
    else if b = 0xF4 then
      match rest with
      | c1 :: c2 :: c3 :: rest' =>
        (0x80 ≤ c1 && c1 ≤ 0x8F) && isCont c2 && isCont c3 && utf8Valid rest'
      | _ => false
    else false

/-! ### README name matching

`readmeRegex` in the scanner is <tt>(?i)readme(\.md|\.txt)?$</tt>
matched against the entry name: the name matches iff it case-insensitively
ends in `readme`, `readme.md` or `readme.txt`. -/

/-- Whether `readmeRegex.MatchString(name)` holds. -/
def isReadmeName (name : List Char) : Bool :=
  let l := name.map Char.toLower
  List.isSuffixOf "readme".toList l ||
    List.isSuffixOf "readme.md".toList l ||
    List.isSuffixOf "readme.txt".toList l

/-! ### Archive extraction (`Scanner.extractContent`)

An archive is the already-parsed list of zip entries (`reader.File`).
Each entry carries its name, whether it is a directory, and its
decompressed bytes.  The reader returned by `file.Open()` is a stream:
`io.Copy` and `io.ReadAll` both consume everything that remains of it,
leaving it empty.  The filesystem effect is modelled as the list of
files written (path and bytes). -/

structure ZipEntry where
  name : List Char
  isDir : Bool
  content : List Nat
deriving DecidableEq

/-- A reader over the decompressed bytes of one entry. -/
structure ByteReader where
  data : List Nat
deriving DecidableEq

/-- `io.Copy(dst, rc)`: returns the bytes copied and the drained reader. -/
def ioCopy (r : ByteReader) : List Nat × ByteReader := (r.data, ⟨[]⟩)

/-- `io.ReadAll(rc)`: returns the remaining bytes and the drained reader. -/
def ioReadAll (r : ByteReader) : List Nat × ByteReader := (r.data, ⟨[]⟩)

structure ExtractResult where
  writes : List (List Char × List Nat)
  blob : List Nat
deriving DecidableEq

/-- One iteration of the entry loop in `extractContent`: join the entry
name onto the scratch dir and reject it unless the cleaned path stays
strictly inside; directory entries only create a directory (the
subsequent `os.OpenFile` on a directory fails and the entry is skipped);
file entries are written from the entry reader by `io.Copy`, after which
entries matching the README regexp have their (already drained) reader
read again, the result appended to the blob with a `\n` separator when
it is valid UTF-8. -/
def processEntry (tmpDir : List Char) (acc : ExtractResult) (e : ZipEntry) : ExtractResult :=
  let path := goJoin tmpDir e.name
  if !(List.isPrefixOf (goClean tmpDir ++ ['/']) path) then acc
  else if e.isDir then acc
  else
    let rc : ByteReader := ⟨e.content⟩
    let copied := ioCopy rc
    let acc' : ExtractResult := ⟨acc.writes ++ [(path, copied.1)], acc.blob⟩
    if isReadmeName e.name then
      let readBack := ioReadAll copied.2
      if utf8Valid readBack.1 then ⟨acc'.writes, acc'.blob ++ readBack.1 ++ [10]⟩
      else acc'
    else acc'

/-- `Scanner.extractContent` on a successfully opened zip archive:
fold the entry loop over the entries in archive order, starting from an
empty scratch directory and an empty README blob. -/
def extractContent (tmpDir : List Char) (archive : List ZipEntry) : ExtractResult :=
  archive.foldl (processEntry tmpDir) ⟨[], []⟩

/-! ### Discovery feed (`Scanner.Start`, main loop)

One fetch of `index.golang.org/index?since=...&limit=...` either fails in
transport, or returns a status code and a body already split on
newlines.  Every line is blank, malformed JSON, or a parsed
`ModuleEntry` with a path and a timestamp. -/

inductive FeedLine where
  | blank
  | malformed
  | entry (path : List Char) (ts : Nat)
deriving DecidableEq

inductive FeedFetch where
  | transportErr
  | resp (status : Nat) (lines : List FeedLine)
deriving DecidableEq

/-- The fatal/continue decision of the discovery loop on one fetch:
a transport error or a non-200 status hits `log.Fatalf`, which
terminates the whole run; otherwise the batch lines are processed. -/
def discoveryStep (f : FeedFetch) : Except (List Char) (List FeedLine) :=
  match f with
  | .transportErr => .error "transport failure, run terminated".toList
  | .resp status lines =>
    if status = 200 then .ok lines
    else .error "unexpected status code, run terminated".toList

/-- How the loop body updates `since` on one line: blank and malformed
lines are skipped, a parsed entry overwrites `since` with its timestamp. -/
def lineSince (s : Nat) (l : FeedLine) : Nat :=
  match l with
  | .entry _ t => t
  | _ => s

/-- The value of `since` persisted under key `since` after a batch: the
loop leaves it at the timestamp of the last successfully parsed entry,
or at its previous value when the batch parsed no entry. -/
def batchSince (since0 : Nat) (lines : List FeedLine) : Nat :=
  lines.foldl lineSince since0

/-- Timestamps of the successfully parsed entries of a batch, in order. -/
def batchTimestamps (lines : List FeedLine) : List Nat :=
  lines.filterMap fun l =>
    match l with
    | .entry _ t => some t
    | _ => none

/-- Paths enqueued onto `s.modPaths` from one batch, in feed order. -/
def batchPaths (lines : List FeedLine) : List (List Char) :=
  lines.filterMap fun l =>
    match l with
    | .entry p _ => some p
    | _ => none

/-! ### Module records and the store (`mods` table)

A stored row of the `mods` table, and the scanner's `Module` value.
The store is the list of rows in insertion order; `path` is declared
`UNIQUE`. -/

structure Module where
  path : List Char
  version : List Char
  readme : List Nat
  time : Nat
deriving DecidableEq

/-- All suffixes of a list, longest first. -/
def suffixes : List Char → List (List Char)
  | [] => [[]]
  | c :: cs => (c :: cs) :: suffixes cs

/-- SQL `LIKE` pattern matching as Postgres/CockroachDB evaluate it:
`%` matches any sequence, `_` any single character, and backslash
escapes the following pattern character.  A pattern ending in a bare
backslash matches nothing (the database rejects it). -/
def likeMatch : List Char → List Char → Bool
  | [], s => s.isEmpty
  | '%' :: ps, s => (suffixes s).any fun s' => likeMatch ps s'
  | '_' :: ps, s =>
    (match s with
     | [] => false
     | _ :: s' => likeMatch ps s')
  | '\\' :: ps, s =>
    (match ps, s with
     | c :: ps', d :: s' => d == c && likeMatch ps' s'
     | _, _ => false)
  | c :: ps, s =>
    (match s with
     | [] => false
     | d :: s' => d == c && likeMatch ps s')

/-- The scanner's upsert statement: `INSERT INTO mods (path, version,
readme, time) VALUES ($1,$2,$3,$4) ON CONFLICT (path) DO UPDATE SET
version = $2, readme = $3, time = $4 WHERE excluded.path LIKE $1`.
On conflict with the unique `path` column the update fires only when
the proposed path matches itself as a `LIKE` pattern. -/
def upsertMod (rows : List Module) (m : Module) : List Module :=
  if rows.any fun r => r.path == m.path then
    if likeMatch m.path m.path then
      rows.map fun r =>
        if r.path == m.path then ⟨r.path, m.version, m.readme, m.time⟩ else r
    else rows
  else rows ++ [m]

/-! ### Version resolution (`latestSeenVersion`, `getLatestModInfo`,
and the `modPaths` worker loop in `Start`) -/

/-- Result of `@latest` for one path. -/
structure ModInfo where
  version : List Char
  time : Nat
deriving DecidableEq

/-- `latestSeenVersion`: a store query that fails for any reason
(including no stored row for the path) yields the empty string. -/
def latestSeenVersion (q : Except (List Char) (List Char)) : List Char :=
  match q with
  | .error _ => []
  | .ok v => v

/-- The two external lookups the resolver worker makes, as oracles:
the per-worker store connection and the `@latest` proxy endpoint. -/
structure ResolveEnv where
  storedVersion : List Char → Except (List Char) (List Char)
  latestInfo : List Char → Except (List Char) ModInfo

/-- Resolver worker state: the per-run `seen` set, the paths for which
`getLatestModInfo` has been called, and the jobs sent to `s.toFetch`. -/
structure ResolveState where
  seen : List (List Char)
  calls : List (List Char)
  jobs : List Module
deriving DecidableEq

/-- One iteration of the `for path := range s.modPaths` loop: skip paths
already seen; otherwise mark the path seen, read the stored version,
call `getLatestModInfo` (skipping the path on error), skip when the
reported version equals the stored one, and otherwise emit one download
job carrying the reported version and publish time. -/
def resolveStep (env : ResolveEnv) (st : ResolveState) (path : List Char) : ResolveState :=
  if path ∈ st.seen then st
  else
    let vSeen := latestSeenVersion (env.storedVersion path)
    let st' : ResolveState := ⟨path :: st.seen, st.calls ++ [path], st.jobs⟩
    match env.latestInfo path with
    | .error _ => st'
    | .ok info =>
      if info.version = vSeen then st'
      else ⟨st'.seen, st'.calls, st'.jobs ++ [⟨path, info.version, [], info.time⟩]⟩

/-- The resolver worker over a run's stream of paths, starting from the
empty `seen` set created at worker startup. -/
def resolveAll (env : ResolveEnv) (paths : List (List Char)) : ResolveState :=
  paths.foldl (resolveStep env) ⟨[], [], []⟩

/-- The jobs the resolver emits from a stream of paths given an initial
`seen` set, in emission order (proved below to agree with the `jobs`
component of the fold of `resolveStep`). -/
def resolveJobs (env : ResolveEnv) (seen : List (List Char)) : List (List Char) → List Module
  | [] => []
  | p :: ps =>
    if p ∈ seen then resolveJobs env seen ps
    else
      match env.latestInfo p with
      | .error _ => resolveJobs env (p :: seen) ps
      | .ok info =>
        if info.version = latestSeenVersion (env.storedVersion p) then
          resolveJobs env (p :: seen) ps
        else ⟨p, info.version, [], info.time⟩ :: resolveJobs env (p :: seen) ps

/-! ### Module download (`downloadModule` and the `toFetch` worker) -/

/-- Outcome of the archive `http.Get`: transport error, or a status code
together with the outcome of `io.ReadAll` on the body. -/
inductive HTTPResult where
  | transportErr
  | ok (status : Nat) (body : Except (List Char) (List Nat))

/-- `Scanner.downloadModule`: download the versioned archive, fail on
transport error, non-200 status or body read error; extract the content
(the extraction collaborator may fail on a corrupt archive or scratch
dir failure); only after extraction succeeds, set the readme and upsert
the record.  Returns the store after the call and the error, if any. -/
def downloadModule (resp : HTTPResult) (ex : List Nat → Except (List Char) (List Nat))
    (store : List Module) (mod : Module) : List Module × Option (List Char) :=
  match resp with
  | .transportErr => (store, some "failed to download module".toList)
  | .ok status body =>
    if status ≠ 200 then (store, some "unexpected status code".toList)
    else
      match body with
      | .error e => (store, some e)
      | .ok data =>
        match ex data with
        | .error e => (store, some e)
        | .ok txt => (upsertMod store ⟨mod.path, mod.version, txt, mod.time⟩, none)

/-- The `for mod := range s.toFetch` worker loop: each job is handled by
`downloadModule`; an error is logged and the loop continues with the
next job. -/
def runJobs (resp : Module → HTTPResult) (ex : List Nat → Except (List Char) (List Nat))
    (store : List Module) : List Module → List Module
  | [] => store
  | j :: js => runJobs resp ex (downloadModule (resp j) ex store j).1 js

/-! ### License classification policy -/

/-- Modelled from the spec: the license-classification collaborator and
its acceptance policy are not part of the sources under src (only the
`modsmeta` schema that stores its output is), so the policy of spec
section 4.3 is modelled from the spec text.  `acceptedPairs` keeps
exactly the identifiers whose confidence is at least 0.90. -/
def acceptedPairs (m : List (List Char × ℚ)) : List (List Char × ℚ) :=
  m.filter fun p => decide (mkRat 9 10 ≤ p.2)

/-- Modelled from the spec: the full accepted set, ties included,
becomes the license set. -/
def licenseSet (m : List (List Char × ℚ)) : List (List Char) :=
  (acceptedPairs m).map Prod.fst

/-- Modelled from the spec: among accepted identifiers the one with the
strictly highest confidence becomes the primary license; when none
clears the threshold the primary license is empty. -/
def primaryLicense (m : List (List Char × ℚ)) : List Char :=
  match acceptedPairs m with
  | [] => []
  | p :: ps => (ps.foldl (fun b q => if b.2 < q.2 then q else b) p).1

/-! ### Concrete collaborators used to instantiate the theorems -/

/-- Environment whose `@latest` lookup fails for the path `bad`. -/
def envBadLookup : ResolveEnv :=
  ⟨fun _ => .ok "v0".toList,
   fun p => if p = "bad".toList then .error "down".toList else .ok ⟨"v1".toList, 3⟩⟩

/-- Environment with stored version `v1` and upstream version `v2`. -/
def envNewVersion : ResolveEnv :=
  ⟨fun _ => .ok "v1".toList, fun _ => .ok ⟨"v2".toList, 7⟩⟩

/-- Environment whose store lookup always fails and whose upstream
lookup reports version `v1`. -/
def envStoreDown : ResolveEnv :=
  ⟨fun _ => .error "connection reset".toList, fun _ => .ok ⟨"v1".toList, 2⟩⟩

/-- The license-confidence mapping of the spec's worked example. -/
def exampleConfidences : List (List Char × ℚ) :=
  [("MIT".toList, mkRat 95 100), ("Apache-2.0".toList, mkRat 91 100),
   ("GPL-3.0".toList, mkRat 5 10)]

/-! ## Theorems -/

/-! ### Extraction lemmas -/

/-- An entry whose joined path fails the containment check is skipped
without any effect. -/
theorem processEntry_rejected (tmpDir : List Char) (e : ZipEntry)
    (h : List.isPrefixOf (goClean tmpDir ++ ['/']) (goJoin tmpDir e.name) = false)
    (acc : ExtractResult) : processEntry tmpDir acc e = acc := by
  simp [processEntry, h]

/-- Each entry either leaves the write log unchanged or appends exactly
its own in-scratch write. -/
theorem processEntry_writes (tmpDir : List Char) (acc : ExtractResult) (e : ZipEntry) :
    (processEntry tmpDir acc e).writes = acc.writes ∨
    ((processEntry tmpDir acc e).writes = acc.writes ++ [(goJoin tmpDir e.name, e.content)] ∧
      List.isPrefixOf (goClean tmpDir ++ ['/']) (goJoin tmpDir e.name) = true) := by
  by_cases h : List.isPrefixOf (goClean tmpDir ++ ['/']) (goJoin tmpDir e.name) = true
  · simp only [processEntry, ioCopy, ioReadAll, h]
    cases e.isDir with
    | true => simp
    | false =>
      cases hr : isReadmeName e.name with
      | false => simp
      | true =>
        cases hv : utf8Valid (⟨[]⟩ : ByteReader).data with
        | false => simp [hr, hv]
        | true => simp [hr, hv]
  · left
    rw [processEntry_rejected tmpDir e (Bool.eq_false_iff.mpr h)]

/-- Every file written during extraction lies strictly inside the
scratch directory. -/
theorem extract_writes_inside (tmpDir : List Char) (archive : List ZipEntry) :
    ∀ acc : ExtractResult,
      (∀ w ∈ acc.writes, List.isPrefixOf (goClean tmpDir ++ ['/']) w.1 = true) →
      ∀ w ∈ (archive.foldl (processEntry tmpDir) acc).writes,
        List.isPrefixOf (goClean tmpDir ++ ['/']) w.1 = true := by
  induction archive with
  | nil => intro acc h; simpa using h
  | cons e rest ih =>
    intro acc h
    simp only [List.foldl_cons]
    apply ih
    intro w hw
    rcases processEntry_writes tmpDir acc e with hw' | ⟨hw', hp⟩
    · exact h w (hw' ▸ hw)
    · rw [hw'] at hw
      rcases List.mem_append.mp hw with hmem | hmem
      · exact h w hmem
      · simp only [List.mem_singleton] at hmem
        subst hmem
        exact hp

/-- C1: on an archive whose single entry `README.md` holds the valid
ASCII text `hello`, `extractContent` writes the full content to disk,
yet the returned blob is only the separator newline: `io.Copy` has
already drained the entry reader before `io.ReadAll` is called for the
README concatenation, so the blob never receives the entry's content,
contradicting the intended concatenation of full README contents. -/
theorem extractContent_readme_blob_drained :
    extractContent "/tmp/pantry/mod-1".toList
        [⟨"README.md".toList, false, [104, 101, 108, 108, 111]⟩] =
      ⟨[("/tmp/pantry/mod-1/README.md".toList, [104, 101, 108, 108, 111])], [10]⟩ ∧
    ([10] : List Nat) ≠ [104, 101, 108, 108, 111] ++ [10] := by
  constructor
  · decide
  · decide

/-- C3: an archive entry whose name joins and cleans to a path outside
the per-job scratch directory is rejected without any write, and the
remaining entries are extracted exactly as if the offending entry were
absent; moreover every file the extraction writes lies strictly inside
the scratch directory. -/
theorem extractContent_zip_slip_defense (tmpDir : List Char) (e : ZipEntry)
    (xs ys : List ZipEntry)
    (h : List.isPrefixOf (goClean tmpDir ++ ['/']) (goJoin tmpDir e.name) = false) :
    extractContent tmpDir (xs ++ e :: ys) = extractContent tmpDir (xs ++ ys) ∧
    ∀ w ∈ (extractContent tmpDir (xs ++ e :: ys)).writes,
      List.isPrefixOf (goClean tmpDir ++ ['/']) w.1 = true := by
  constructor
  · unfold extractContent
    rw [List.foldl_append, List.foldl_append, List.foldl_cons,
      processEntry_rejected tmpDir e h]
  · intro w hw
    exact extract_writes_inside tmpDir (xs ++ e :: ys) ⟨[], []⟩ (by simp) w hw

/-- Witness for C3: the entry `../../etc/passwd` resolves to
`/tmp/etc/passwd`, outside the scratch directory `/tmp/pantry/mod-1`;
it is rejected and the remaining `m/README` entry is still extracted. -/
theorem extractContent_zip_slip_defense_witness :
    List.isPrefixOf (goClean "/tmp/pantry/mod-1".toList ++ ['/'])
        (goJoin "/tmp/pantry/mod-1".toList "../../etc/passwd".toList) = false ∧
    extractContent "/tmp/pantry/mod-1".toList
        [⟨"../../etc/passwd".toList, false, [65]⟩, ⟨"m/README".toList, false, [104, 105]⟩] =
      extractContent "/tmp/pantry/mod-1".toList [⟨"m/README".toList, false, [104, 105]⟩] :=
  ⟨by decide,
   (extractContent_zip_slip_defense "/tmp/pantry/mod-1".toList
      ⟨"../../etc/passwd".toList, false, [65]⟩ []
      [⟨"m/README".toList, false, [104, 105]⟩] (by decide)).1⟩

/-! ### Checkpoint cursor -/

/-- C4, counterexample: the loop sets `since` to the timestamp of the
*last* parsed entry, not the maximum.  A batch whose entries arrive with
timestamps 5 then 3 persists 3, below the batch maximum 5; and a batch
fetched when the cursor is already 5 persists 3, so the checkpoint also
decreases across batches. -/
theorem batchSince_below_max_counterexample :
    batchSince 0 [.entry "a".toList 5, .entry "b".toList 3] = 3 ∧
    ¬ (∀ t ∈ batchTimestamps [FeedLine.entry "a".toList 5, FeedLine.entry "b".toList 3],
        t ≤ batchSince 0 [.entry "a".toList 5, .entry "b".toList 3]) ∧
    batchSince 5 [.entry "b".toList 3] < 5 := by
  refine ⟨by decide, ?_, by decide⟩
  intro hall
  exact absurd (hall 5 (by decide)) (by decide)

/-- C4, amended: when the parsed timestamps of a batch are
non-decreasing in feed order and start at or above the current cursor,
the persisted value is at least the prior cursor and at least every
timestamp of the batch (hence the batch maximum), which also gives
monotonicity across such batches. -/
theorem batchSince_checkpoint_of_sorted (since0 : Nat) (lines : List FeedLine)
    (h : List.Chain' (· ≤ ·) (since0 :: batchTimestamps lines)) :
    since0 ≤ batchSince since0 lines ∧
    ∀ t ∈ batchTimestamps lines, t ≤ batchSince since0 lines := by
  induction lines generalizing since0 with
  | nil => exact ⟨Nat.le_refl _, by simp [batchTimestamps]⟩
  | cons l rest ih =>
    cases l with
    | blank =>
      have hts : batchTimestamps (FeedLine.blank :: rest) = batchTimestamps rest := by
        simp [batchTimestamps]
      have hbs : batchSince since0 (FeedLine.blank :: rest) = batchSince since0 rest := rfl
      rw [hts] at h ⊢
      rw [hbs]
      exact ih since0 h
    | malformed =>
      have hts : batchTimestamps (FeedLine.malformed :: rest) = batchTimestamps rest := by
        simp [batchTimestamps]
      have hbs : batchSince since0 (FeedLine.malformed :: rest) = batchSince since0 rest := rfl
      rw [hts] at h ⊢
      rw [hbs]
      exact ih since0 h
    | entry p t =>
      have hts : batchTimestamps (FeedLine.entry p t :: rest) = t :: batchTimestamps rest := by
        simp [batchTimestamps]
      have hbs : batchSince since0 (FeedLine.entry p t :: rest) = batchSince t rest := rfl
      rw [hts] at h
      rw [hts, hbs]
      rw [List.chain'_cons] at h
      obtain ⟨h0t, hrest⟩ := h
      obtain ⟨hle, hall⟩ := ih t hrest
      refine ⟨Nat.le_trans h0t hle, ?_⟩
      intro s hs
      rcases List.mem_cons.mp hs with hs | hs
      · exact hs ▸ hle
      · exact hall s hs

/-- Witness for C4 (amended): cursor 1, batch timestamps 3 then 5: the
persisted value 5 is at least the prior cursor. -/
theorem batchSince_checkpoint_of_sorted_witness :
    List.Chain' (· ≤ ·)
      (1 :: batchTimestamps [FeedLine.entry "a".toList 3, FeedLine.entry "b".toList 5]) ∧
    1 ≤ batchSince 1 [FeedLine.entry "a".toList 3, FeedLine.entry "b".toList 5] :=
  ⟨by simp [batchTimestamps, List.chain'_cons],
   (batchSince_checkpoint_of_sorted 1
      [FeedLine.entry "a".toList 3, FeedLine.entry "b".toList 5]
      (by simp [batchTimestamps, List.chain'_cons])).1⟩

/-! ### Download stage -/

/-- When `downloadModule` reports an error, the store is untouched. -/
theorem downloadModule_fail_store (resp : HTTPResult)
    (ex : List Nat → Except (List Char) (List Nat)) (store : List Module) (mod : Module)
    (h : (downloadModule resp ex store mod).2.isSome = true) :
    (downloadModule resp ex store mod).1 = store := by
  cases resp with
  | transportErr => rfl
  | ok status body =>
    by_cases hs : status = 200
    · cases body with
      | error e => simp [downloadModule, hs]
      | ok data =>
        cases hex : ex data with
        | error e => simp [downloadModule, hs, hex]
        | ok txt => simp [downloadModule, hs, hex] at h
    · simp [downloadModule, hs]

/-- The error outcome of `downloadModule` does not depend on the store
it is given. -/
theorem downloadModule_snd_const (resp : HTTPResult)
    (ex : List Nat → Except (List Char) (List Nat)) (s t : List Module) (mod : Module) :
    (downloadModule resp ex s mod).2 = (downloadModule resp ex t mod).2 := by
  cases resp with
  | transportErr => rfl
  | ok status body =>
    by_cases hs : status = 200
    · cases body with
      | error e => simp [downloadModule, hs]
      | ok data =>
        cases hex : ex data with
        | error e => simp [downloadModule, hs, hex]
        | ok txt => simp [downloadModule, hs, hex]
    · simp [downloadModule, hs]

/-- C5: a transport error, non-success status, body read failure or
extraction failure leaves the store without any insert or update of the
module's row; and whenever the store does change, the download returned
status 200 and extraction fully succeeded, the written record carrying
the extracted readme. -/
theorem downloadModule_writes_only_after_success (resp : HTTPResult)
    (ex : List Nat → Except (List Char) (List Nat)) (store : List Module) (mod : Module) :
    ((downloadModule resp ex store mod).2.isSome = true →
      (downloadModule resp ex store mod).1 = store) ∧
    ((downloadModule resp ex store mod).1 ≠ store →
      ∃ data txt, resp = .ok 200 (.ok data) ∧ ex data = .ok txt ∧
        (downloadModule resp ex store mod).1 =
          upsertMod store ⟨mod.path, mod.version, txt, mod.time⟩) := by
  refine ⟨downloadModule_fail_store resp ex store mod, ?_⟩
  intro hne
  cases resp with
  | transportErr => exact absurd rfl hne
  | ok status body =>
    by_cases hs : status = 200
    · cases body with
      | error e => exact absurd (by simp [downloadModule, hs]) hne
      | ok data =>
        cases hex : ex data with
        | error e => exact absurd (by simp [downloadModule, hs, hex]) hne
        | ok txt =>
          subst hs
          exact ⟨data, txt, rfl, hex, by simp [downloadModule, hex]⟩
    · exact absurd (by simp [downloadModule, hs]) hne

/-- Witness for C5: a 404 response leaves the store unchanged. -/
theorem downloadModule_writes_only_after_success_witness :
    (downloadModule (.ok 404 (.ok [])) (fun _ => .error "boom".toList)
        [⟨"q".toList, "v0".toList, [], 0⟩] ⟨"p".toList, "v1".toList, [], 1⟩).1 =
      [⟨"q".toList, "v0".toList, [], 0⟩] :=
  (downloadModule_writes_only_after_success (.ok 404 (.ok []))
    (fun _ => .error "boom".toList) [⟨"q".toList, "v0".toList, [], 0⟩]
    ⟨"p".toList, "v1".toList, [], 1⟩).1 rfl

/-! ### Store upsert -/

/-- The conflict-update of the upsert statement never changes a row's
path. -/
theorem upsertUpdate_path (m r : Module) :
    ((if r.path == m.path then (⟨r.path, m.version, m.readme, m.time⟩ : Module) else r) : Module).path
      = r.path := by
  by_cases h : r.path == m.path <;> simp [h]

/-- C9, counterexample: for the path `a\b` (which does not match itself
as a `LIKE` pattern, because backslash escapes), the upsert's
`WHERE excluded.path LIKE $1` clause is false, so a second processing
with a new version leaves the stored row's version at `v1` instead of
overwriting it with `v2`. -/
theorem upsertMod_like_escape_counterexample :
    upsertMod [⟨"a\\b".toList, "v1".toList, [], 0⟩] ⟨"a\\b".toList, "v2".toList, [], 1⟩ =
      [⟨"a\\b".toList, "v1".toList, [], 0⟩] ∧
    upsertMod [⟨"a\\b".toList, "v1".toList, [], 0⟩] ⟨"a\\b".toList, "v2".toList, [], 1⟩ ≠
      [⟨"a\\b".toList, "v2".toList, [], 1⟩] := by
  constructor
  · decide
  · decide

/-- Unfolding of `upsertMod` when the path conflicts and self-matches
under `LIKE`: the conflicting row is updated. -/
theorem upsertMod_eq_update (rows : List Module) (m : Module)
    (h1 : (rows.any fun r => r.path == m.path) = true)
    (h2 : likeMatch m.path m.path = true) :
    upsertMod rows m =
      rows.map fun r =>
        if r.path == m.path then ⟨r.path, m.version, m.readme, m.time⟩ else r := by
  unfold upsertMod
  rw [if_pos h1, if_pos h2]

/-- Unfolding of `upsertMod` when the path conflicts but fails the
`LIKE` self-match: the `DO UPDATE ... WHERE` clause filters the update
out and nothing changes. -/
theorem upsertMod_eq_noupdate (rows : List Module) (m : Module)
    (h1 : (rows.any fun r => r.path == m.path) = true)
    (h2 : likeMatch m.path m.path = false) :
    upsertMod rows m = rows := by
  unfold upsertMod
  rw [if_pos h1, if_neg (by simp [h2])]

/-- Unfolding of `upsertMod` when no row conflicts: plain insert. -/
theorem upsertMod_eq_insert (rows : List Module) (m : Module)
    (h1 : (rows.any fun r => r.path == m.path) = false) :
    upsertMod rows m = rows ++ [m] := by
  unfold upsertMod
  rw [if_neg (by simp [h1])]

/-- C9, amended: for every path that matches itself as a `LIKE` pattern
(any path without a backslash, in particular every Go module path), an
upsert on an existing path overwrites version/readme/time in place and
keeps the row count; for every path, path-uniqueness of the store is
preserved and processing the same record twice leaves the store exactly
as processing it once (no duplicate rows in any case). -/
theorem upsertMod_overwrite_semantics (rows : List Module) (m : Module) :
    ((rows.any fun r => r.path == m.path) = true → likeMatch m.path m.path = true →
      ((upsertMod rows m).length = rows.length ∧
       ∀ r ∈ upsertMod rows m, r.path = m.path →
         r.version = m.version ∧ r.readme = m.readme ∧ r.time = m.time)) ∧
    ((rows.map fun r => r.path).Nodup → ((upsertMod rows m).map fun r => r.path).Nodup) ∧
    upsertMod (upsertMod rows m) m = upsertMod rows m := by
  by_cases hany : (rows.any fun r => r.path == m.path) = true
  · by_cases hlike : likeMatch m.path m.path = true
    · have hup := upsertMod_eq_update rows m hany hlike
      refine ⟨fun _ _ => ⟨by rw [hup]; exact List.length_map .., ?_⟩, ?_, ?_⟩
      · intro r hr hpath
        rw [hup] at hr
        obtain ⟨r0, _, hr0⟩ := List.mem_map.mp hr
        by_cases h0 : r0.path == m.path
        · rw [if_pos h0] at hr0
          subst hr0
          exact ⟨rfl, rfl, rfl⟩
        · rw [if_neg h0] at hr0
          subst hr0
          exact absurd (beq_iff_eq.mpr hpath) h0
      · intro hnd
        have hpaths : (upsertMod rows m).map (fun r => r.path) =
            rows.map fun r => r.path := by
          rw [hup, List.map_map]
          exact List.map_congr_left fun r _ => upsertUpdate_path m r
        rw [hpaths]
        exact hnd
      · have hany2 : ((upsertMod rows m).any fun r => r.path == m.path) = true := by
          rw [hup, List.any_map]
          have hcomp : ((fun (r : Module) => r.path == m.path) ∘ fun r =>
              if r.path == m.path then (⟨r.path, m.version, m.readme, m.time⟩ : Module) else r) =
              fun r => r.path == m.path := by
            funext r
            simp only [Function.comp]
            rw [upsertUpdate_path m r]
          rw [hcomp]
          exact hany
        rw [upsertMod_eq_update (upsertMod rows m) m hany2 hlike, hup, List.map_map]
        refine List.map_congr_left fun r _ => ?_
        by_cases h0 : r.path == m.path
        · simp only [Function.comp, if_pos h0]
        · simp only [Function.comp, if_neg h0]
    · have hlikef : likeMatch m.path m.path = false := Bool.eq_false_iff.mpr hlike
      have hup := upsertMod_eq_noupdate rows m hany hlikef
      refine ⟨fun _ hl => absurd hl hlike, ?_, ?_⟩
      · rw [hup]; exact id
      · rw [hup, hup]
  · have hanyf : (rows.any fun r => r.path == m.path) = false := Bool.eq_false_iff.mpr hany
    have hup := upsertMod_eq_insert rows m hanyf
    have hnotin : ∀ r ∈ rows, ¬(r.path == m.path) = true := by
      intro r hr
      exact fun hc => hany (List.any_eq_true.mpr ⟨r, hr, hc⟩)
    refine ⟨fun ha => absurd ha hany, ?_, ?_⟩
    · intro hnd
      rw [hup, List.map_append]
      refine List.Nodup.append hnd (by simp) ?_
      intro p hp hq
      simp only [List.map_cons, List.map_nil, List.mem_singleton] at hq
      obtain ⟨r, hr, hrp⟩ := List.mem_map.mp hp
      exact hnotin r hr (beq_iff_eq.mpr (hrp.trans hq))
    · have hany2 : ((rows ++ [m]).any fun r => r.path == m.path) = true := by
        simp
      by_cases hlike : likeMatch m.path m.path = true
      · rw [hup, upsertMod_eq_update (rows ++ [m]) m hany2 hlike, List.map_append]
        have hmapid : (rows.map fun r =>
            if r.path == m.path then (⟨r.path, m.version, m.readme, m.time⟩ : Module) else r) =
            rows := by
          refine (List.map_congr_left fun r hr => ?_).trans (List.map_id rows)
          rw [if_neg (hnotin r hr)]
          rfl
        rw [hmapid]
        have hmlast : (([m] : List Module).map fun r =>
            if r.path == m.path then (⟨r.path, m.version, m.readme, m.time⟩ : Module) else r) =
            [m] := by
          simp
        rw [hmlast]
      · have hlikef : likeMatch m.path m.path = false := Bool.eq_false_iff.mpr hlike
        rw [hup, upsertMod_eq_noupdate (rows ++ [m]) m hany2 hlikef]

/-! ### Resolver lemmas -/

/-- The jobs component of the worker fold factors through
`resolveJobs`. -/
theorem foldl_resolveStep_jobs (env : ResolveEnv) :
    ∀ (paths : List (List Char)) (st : ResolveState),
      (paths.foldl (resolveStep env) st).jobs = st.jobs ++ resolveJobs env st.seen paths := by
  intro paths
  induction paths with
  | nil => intro st; simp [resolveJobs]
  | cons p ps ih =>
    intro st
    simp only [List.foldl_cons]
    by_cases hp : p ∈ st.seen
    · rw [show resolveStep env st p = st from by simp [resolveStep, hp]]
      rw [ih st]
      simp [resolveJobs, hp]
    · cases hinfo : env.latestInfo p with
      | error e =>
        have hstep : resolveStep env st p = ⟨p :: st.seen, st.calls ++ [p], st.jobs⟩ := by
          simp [resolveStep, hp, hinfo]
        rw [hstep, ih]
        simp [resolveJobs, hp, hinfo]
      | ok info =>
        by_cases hv : info.version = latestSeenVersion (env.storedVersion p)
        · have hstep : resolveStep env st p = ⟨p :: st.seen, st.calls ++ [p], st.jobs⟩ := by
            simp [resolveStep, hp, hinfo, hv]
          rw [hstep, ih]
          simp [resolveJobs, hp, hinfo, hv]
        · have hstep : resolveStep env st p =
              ⟨p :: st.seen, st.calls ++ [p],
               st.jobs ++ [⟨p, info.version, [], info.time⟩]⟩ := by
            simp [resolveStep, hp, hinfo, hv]
          rw [hstep, ih]
          simp [resolveJobs, hp, hinfo, hv]

/-- `resolveJobs` only depends on the `seen` set through membership of
the remaining paths. -/
theorem resolveJobs_seen_congr (env : ResolveEnv) :
    ∀ (ps : List (List Char)) (s1 s2 : List (List Char)),
      (∀ q ∈ ps, q ∈ s1 ↔ q ∈ s2) → resolveJobs env s1 ps = resolveJobs env s2 ps := by
  intro ps
  induction ps with
  | nil => intro s1 s2 _; rfl
  | cons p ps ih =>
    intro s1 s2 h
    have hp := h p (List.mem_cons_self p ps)
    have htail : ∀ q ∈ ps, q ∈ s1 ↔ q ∈ s2 :=
      fun q hq => h q (List.mem_cons_of_mem p hq)
    have hcons : ∀ q ∈ ps, q ∈ p :: s1 ↔ q ∈ p :: s2 := by
      intro q hq
      simp only [List.mem_cons]
      exact or_congr Iff.rfl (htail q hq)
    by_cases h1 : p ∈ s1
    · have h2 : p ∈ s2 := hp.mp h1
      simp only [resolveJobs, if_pos h1, if_pos h2]
      exact ih s1 s2 htail
    · have h2 : ¬ p ∈ s2 := fun hc => h1 (hp.mpr hc)
      cases hinfo : env.latestInfo p with
      | error e =>
        simp only [resolveJobs, if_neg h1, if_neg h2, hinfo]
        exact ih (p :: s1) (p :: s2) hcons
      | ok info =>
        by_cases hv : info.version = latestSeenVersion (env.storedVersion p)
        · simp only [resolveJobs, if_neg h1, if_neg h2, hinfo, if_pos hv]
          exact ih (p :: s1) (p :: s2) hcons
        · simp only [resolveJobs, if_neg h1, if_neg h2, hinfo, if_neg hv]
          rw [ih (p :: s1) (p :: s2) hcons]

/-- Dropping a path whose `@latest` lookup fails does not change the
emitted jobs, provided the path occurs nowhere else in the stream. -/
theorem resolveJobs_drop_failed (env : ResolveEnv) (p : List Char) (msg : List Char)
    (hfail : env.latestInfo p = .error msg) :
    ∀ (xs : List (List Char)) (ys seen : List (List Char)), p ∉ xs → p ∉ ys → p ∉ seen →
      resolveJobs env seen (xs ++ p :: ys) = resolveJobs env seen (xs ++ ys) := by
  intro xs
  induction xs with
  | nil =>
    intro ys seen _ hys hseen
    simp only [List.nil_append]
    rw [show resolveJobs env seen (p :: ys) = resolveJobs env (p :: seen) ys from by
      simp [resolveJobs, hseen, hfail]]
    apply resolveJobs_seen_congr
    intro q hq
    have hqp : q ≠ p := fun he => hys (he ▸ hq)
    simp [List.mem_cons, hqp]
  | cons a xs ih =>
    intro ys seen hxs hys hseen
    have hpa : p ≠ a := fun he => hxs (he ▸ List.mem_cons_self a xs)
    have hxs' : p ∉ xs := fun hc => hxs (List.mem_cons_of_mem a hc)
    have hseen' : p ∉ a :: seen := by simp [List.mem_cons, hpa, hseen]
    simp only [List.cons_append]
    by_cases ha : a ∈ seen
    · simp only [resolveJobs, if_pos ha]
      exact ih ys seen hxs' hys hseen
    · cases hinfo : env.latestInfo a with
      | error e =>
        simp only [resolveJobs, if_neg ha, hinfo]
        exact ih ys (a :: seen) hxs' hys hseen'
      | ok info =>
        by_cases hv : info.version = latestSeenVersion (env.storedVersion a)
        · simp only [resolveJobs, if_neg ha, hinfo, if_pos hv]
          exact ih ys (a :: seen) hxs' hys hseen'
        · simp only [resolveJobs, if_neg ha, hinfo, if_neg hv]
          rw [ih ys (a :: seen) hxs' hys hseen']

/-- `runJobs` splits over list append. -/
theorem runJobs_append (resp : Module → HTTPResult)
    (ex : List Nat → Except (List Char) (List Nat)) :
    ∀ (js ks : List Module) (store : List Module),
      runJobs resp ex store (js ++ ks) = runJobs resp ex (runJobs resp ex store js) ks := by
  intro js
  induction js with
  | nil => intro ks store; rfl
  | cons j js ih =>
    intro ks store
    simp only [List.cons_append, runJobs]
    exact ih ks _

/-- C6: a failing `@latest` lookup removes only that path from the
emitted jobs (the pipeline continues with the others); a failing
download job is skipped and the remaining jobs leave the store exactly
as if the failed job were absent; a transport error or non-success
status on the discovery feed fetch terminates the run. -/
theorem failure_isolation_and_feed_fatal :
    (∀ (env : ResolveEnv) (xs ys : List (List Char)) (p msg : List Char),
      env.latestInfo p = .error msg → p ∉ xs → p ∉ ys →
      (resolveAll env (xs ++ p :: ys)).jobs = (resolveAll env (xs ++ ys)).jobs) ∧
    (∀ (resp : Module → HTTPResult) (ex : List Nat → Except (List Char) (List Nat))
       (store : List Module) (js ks : List Module) (j : Module),
      (downloadModule (resp j) ex [] j).2.isSome = true →
      runJobs resp ex store (js ++ j :: ks) = runJobs resp ex store (js ++ ks)) ∧
    (∀ f : FeedFetch, (f = .transportErr ∨ ∃ st lines, f = .resp st lines ∧ st ≠ 200) →
      ∃ e, discoveryStep f = .error e) := by
  refine ⟨?_, ?_, ?_⟩
  · intro env xs ys p msg hfail hxs hys
    unfold resolveAll
    rw [foldl_resolveStep_jobs, foldl_resolveStep_jobs]
    exact congrArg _ (resolveJobs_drop_failed env p msg hfail xs ys [] hxs hys (by simp))
  · intro resp ex store js ks j hfail
    rw [runJobs_append, runJobs_append]
    have hsome : (downloadModule (resp j) ex (runJobs resp ex store js) j).2.isSome = true := by
      rw [downloadModule_snd_const (resp j) ex (runJobs resp ex store js) [] j]
      exact hfail
    simp only [runJobs]
    rw [downloadModule_fail_store (resp j) ex (runJobs resp ex store js) j hsome]
  · intro f hf
    rcases hf with rfl | ⟨st, lines, rfl, hst⟩
    · exact ⟨_, rfl⟩
    · exact ⟨"unexpected status code, run terminated".toList, by simp [discoveryStep, hst]⟩

/-- Witness for C6: with a lookup that fails only for `bad`, the run
over paths `a, bad, b` emits the same jobs as the run over `a, b`. -/
theorem failure_isolation_and_feed_fatal_witness :
    envBadLookup.latestInfo "bad".toList = .error "down".toList ∧
    (resolveAll envBadLookup ["a".toList, "bad".toList, "b".toList]).jobs =
      (resolveAll envBadLookup ["a".toList, "b".toList]).jobs :=
  ⟨rfl,
   failure_isolation_and_feed_fatal.1 envBadLookup ["a".toList] ["b".toList]
     "bad".toList "down".toList rfl (by decide) (by decide)⟩

/-- In every branch, `resolveStep` either leaves the state unchanged
(path already seen) or marks the path seen and records exactly one
lookup call for it. -/
theorem resolveStep_calls_seen (env : ResolveEnv) (st : ResolveState) (p : List Char) :
    (p ∈ st.seen ∧ resolveStep env st p = st) ∨
    (p ∉ st.seen ∧ (resolveStep env st p).seen = p :: st.seen ∧
      (resolveStep env st p).calls = st.calls ++ [p]) := by
  by_cases hp : p ∈ st.seen
  · exact Or.inl ⟨hp, by simp [resolveStep, hp]⟩
  · refine Or.inr ⟨hp, ?_, ?_⟩ <;>
    · cases hinfo : env.latestInfo p with
      | error e => simp [resolveStep, hp, hinfo]
      | ok info =>
        by_cases hv : info.version = latestSeenVersion (env.storedVersion p)
        · simp [resolveStep, hp, hinfo, hv]
        · simp [resolveStep, hp, hinfo, hv]

/-- Invariant of the worker fold: the call log has no duplicates and
every called path is in the seen set. -/
theorem resolveAll_calls_invariant (env : ResolveEnv) :
    ∀ (paths : List (List Char)) (st : ResolveState),
      st.calls.Nodup → (∀ c ∈ st.calls, c ∈ st.seen) →
      ((paths.foldl (resolveStep env) st).calls.Nodup ∧
       ∀ c ∈ (paths.foldl (resolveStep env) st).calls,
         c ∈ (paths.foldl (resolveStep env) st).seen) := by
  intro paths
  induction paths with
  | nil => intro st h1 h2; exact ⟨h1, h2⟩
  | cons p ps ih =>
    intro st h1 h2
    simp only [List.foldl_cons]
    rcases resolveStep_calls_seen env st p with ⟨_, he⟩ | ⟨hp, hs, hc⟩
    · rw [he]
      exact ih st h1 h2
    · apply ih
      · rw [hc, List.nodup_append]
        refine ⟨h1, by simp, ?_⟩
        intro c hcall hcp
        simp only [List.mem_singleton] at hcp
        exact hp (hcp ▸ h2 c hcall)
      · intro c hcall
        rw [hc] at hcall
        rw [hs]
        rcases List.mem_append.mp hcall with hcall | hcall
        · exact List.mem_cons_of_mem p (h2 c hcall)
        · simp only [List.mem_singleton] at hcall
          exact hcall ▸ List.mem_cons_self p st.seen

/-- C7: within one run, each path triggers at most one
`getLatestModInfo` lookup, however often it appears in the feed. -/
theorem resolveAll_lookup_at_most_once (env : ResolveEnv) (paths : List (List Char))
    (p : List Char) :
    @List.count (List Char) instBEqOfDecidableEq p (resolveAll env paths).calls ≤ 1 :=
  List.nodup_iff_count_le_one.mp
    ((resolveAll_calls_invariant env paths ⟨[], [], []⟩ (by simp) (by simp)).1) p

/-- C8: for a new path whose `@latest` lookup succeeds, no job is
emitted when the reported version equals the stored one, and otherwise
exactly one job is emitted, carrying the reported version and publish
time. -/
theorem resolveStep_emit_decision (env : ResolveEnv) (st : ResolveState) (path : List Char)
    (info : ModInfo) (hseen : path ∉ st.seen) (hinfo : env.latestInfo path = .ok info) :
    (info.version = latestSeenVersion (env.storedVersion path) →
      (resolveStep env st path).jobs = st.jobs) ∧
    (info.version ≠ latestSeenVersion (env.storedVersion path) →
      (resolveStep env st path).jobs = st.jobs ++ [⟨path, info.version, [], info.time⟩]) := by
  constructor
  · intro hv
    simp [resolveStep, hseen, hinfo, hv]
  · intro hv
    simp [resolveStep, hseen, hinfo, hv]

/-- Witness for C8: stored version `v1`, upstream `v2` at time 7: one
job is emitted with version `v2` and time 7. -/
theorem resolveStep_emit_decision_witness :
    (resolveStep envNewVersion ⟨[], [], []⟩ "m".toList).jobs =
      [⟨"m".toList, "v2".toList, [], 7⟩] :=
  (resolveStep_emit_decision envNewVersion ⟨[], [], []⟩ "m".toList ⟨"v2".toList, 7⟩
    (by simp) rfl).2 (by decide)

/-- C10: any store lookup failure yields the empty last-seen version, so
the path is treated exactly like a brand-new one: a job is emitted iff
the upstream version is non-empty. -/
theorem latestSeenVersion_error_as_new :
    (∀ e : List Char, latestSeenVersion (.error e) = []) ∧
    (∀ (env : ResolveEnv) (st : ResolveState) (path : List Char) (info : ModInfo)
       (msg : List Char),
      env.storedVersion path = .error msg → path ∉ st.seen →
      env.latestInfo path = .ok info →
      ((info.version ≠ [] →
        (resolveStep env st path).jobs = st.jobs ++ [⟨path, info.version, [], info.time⟩]) ∧
       (info.version = [] → (resolveStep env st path).jobs = st.jobs))) := by
  refine ⟨fun _ => rfl, ?_⟩
  intro env st path info msg hstore hseen hinfo
  have hempty : latestSeenVersion (env.storedVersion path) = [] := by
    rw [hstore]
    rfl
  constructor
  · intro hv
    have hne : ¬ info.version = latestSeenVersion (env.storedVersion path) := by
      rw [hempty]; exact hv
    simp [resolveStep, hseen, hinfo, hne]
  · intro hv
    have heq : info.version = latestSeenVersion (env.storedVersion path) := by
      rw [hempty]; exact hv
    simp [resolveStep, hseen, hinfo, heq]

/-- Witness for C10: with a store whose lookups all fail and upstream
version `v1` at time 2, one job is emitted. -/
theorem latestSeenVersion_error_as_new_witness :
    envStoreDown.storedVersion "m".toList = .error "connection reset".toList ∧
    (resolveStep envStoreDown ⟨[], [], []⟩ "m".toList).jobs =
      [⟨"m".toList, "v1".toList, [], 2⟩] :=
  ⟨rfl,
   (latestSeenVersion_error_as_new.2 envStoreDown ⟨[], [], []⟩ "m".toList
      ⟨"v1".toList, 2⟩ "connection reset".toList rfl (by simp) rfl).1 (by decide)⟩

/-- Witness for C9 (amended): upserting version `v2` over the stored
row for path `a/b` keeps a single row. -/
theorem upsertMod_overwrite_semantics_witness :
    (([⟨"a/b".toList, "v1".toList, [], 0⟩] : List Module).any
        fun r => r.path == ("a/b".toList : List Char)) = true ∧
    likeMatch "a/b".toList "a/b".toList = true ∧
    (upsertMod [⟨"a/b".toList, "v1".toList, [], 0⟩] ⟨"a/b".toList, "v2".toList, [7], 1⟩).length =
      ([⟨"a/b".toList, "v1".toList, [], 0⟩] : List Module).length :=
  ⟨by decide, by decide,
   ((upsertMod_overwrite_semantics [⟨"a/b".toList, "v1".toList, [], 0⟩]
      ⟨"a/b".toList, "v2".toList, [7], 1⟩).1 (by decide) (by decide)).1⟩


/-! ### License policy -/

/-- The fold selecting the highest-confidence pair returns an element of
the candidates that dominates the seed and all candidates. -/
theorem foldl_best_spec (ps : List (List Char × ℚ)) :
    ∀ b : List Char × ℚ,
      ((ps.foldl (fun b q => if b.2 < q.2 then q else b) b) = b ∨
        (ps.foldl (fun b q => if b.2 < q.2 then q else b) b) ∈ ps) ∧
      b.2 ≤ (ps.foldl (fun b q => if b.2 < q.2 then q else b) b).2 ∧
      ∀ q ∈ ps, q.2 ≤ (ps.foldl (fun b q => if b.2 < q.2 then q else b) b).2 := by
  induction ps with
  | nil => intro b; exact ⟨Or.inl rfl, le_refl _, by simp⟩
  | cons q ps ih =>
    intro b
    rw [List.foldl_cons]
    obtain ⟨hmem, hle, hall⟩ := ih (if b.2 < q.2 then q else b)
    have hbb : b.2 ≤ (if b.2 < q.2 then q else b).2 := by
      by_cases h : b.2 < q.2
      · rw [if_pos h]; exact le_of_lt h
      · rw [if_neg h]
    have hqb : q.2 ≤ (if b.2 < q.2 then q else b).2 := by
      by_cases h : b.2 < q.2
      · rw [if_pos h]
      · rw [if_neg h]; exact le_of_not_lt h
    refine ⟨?_, le_trans hbb hle, ?_⟩
    · rcases hmem with he | hm
      · by_cases h : b.2 < q.2
        · rw [if_pos h] at he ⊢
          rw [he]
          exact Or.inr (List.mem_cons_self q ps)
        · rw [if_neg h] at he ⊢
          exact Or.inl he
      · exact Or.inr (List.mem_cons_of_mem q hm)
    · intro r hr
      rcases List.mem_cons.mp hr with rfl | hm
      · exact le_trans hqb hle
      · exact hall r hm

/-- C2: the accepted set is exactly the identifiers whose confidence is
at least 0.90; an accepted identifier strictly above every other
accepted one is the primary license; when nothing reaches the threshold
both the set and the primary license are empty. -/
theorem licensePolicy_spec (m : List (List Char × ℚ)) :
    (∀ id : List Char, id ∈ licenseSet m ↔ ∃ c : ℚ, (id, c) ∈ m ∧ mkRat 9 10 ≤ c) ∧
    (∀ x ∈ m, mkRat 9 10 ≤ x.2 →
      (∀ y ∈ m, mkRat 9 10 ≤ y.2 → y ≠ x → y.2 < x.2) → primaryLicense m = x.1) ∧
    ((∀ y ∈ m, y.2 < mkRat 9 10) → licenseSet m = [] ∧ primaryLicense m = []) := by
  refine ⟨?_, ?_, ?_⟩
  · intro id
    simp only [licenseSet, acceptedPairs, List.mem_map, List.mem_filter]
    constructor
    · rintro ⟨⟨i, c⟩, ⟨hm, hc⟩, rfl⟩
      exact ⟨c, hm, of_decide_eq_true hc⟩
    · rintro ⟨c, hm, hc⟩
      exact ⟨(id, c), ⟨hm, decide_eq_true hc⟩, rfl⟩
  · intro x hx hxc hstrict
    have hxacc : x ∈ acceptedPairs m := List.mem_filter.mpr ⟨hx, decide_eq_true hxc⟩
    have hsub : ∀ r ∈ acceptedPairs m, r ∈ m ∧ mkRat 9 10 ≤ r.2 := by
      intro r hr
      obtain ⟨hrm, hrc⟩ := List.mem_filter.mp hr
      exact ⟨hrm, of_decide_eq_true hrc⟩
    cases hacc : acceptedPairs m with
    | nil => rw [hacc] at hxacc; exact absurd hxacc (List.not_mem_nil x)
    | cons p ps =>
      obtain ⟨hmem, hle, hall⟩ := foldl_best_spec ps p
      have hrmem : (ps.foldl (fun b q => if b.2 < q.2 then q else b) p) ∈ acceptedPairs m := by
        rw [hacc]
        rcases hmem with he | hm
        · rw [he]
          exact List.mem_cons_self p ps
        · exact List.mem_cons_of_mem p hm
      have hmax : ∀ q ∈ acceptedPairs m,
          q.2 ≤ (ps.foldl (fun b q => if b.2 < q.2 then q else b) p).2 := by
        rw [hacc]
        intro q hq
        rcases List.mem_cons.mp hq with rfl | hm
        · exact hle
        · exact hall q hm
      have hrx : (ps.foldl (fun b q => if b.2 < q.2 then q else b) p) = x := by
        by_contra hne
        obtain ⟨hrm, hrc⟩ := hsub _ hrmem
        have hlt := hstrict _ hrm hrc hne
        exact absurd (lt_of_le_of_lt (hmax x hxacc) hlt) (lt_irrefl _)
      simp only [primaryLicense, hacc]
      rw [hrx]
  · intro hall
    have hnil : acceptedPairs m = [] := by
      apply List.filter_eq_nil_iff.mpr
      intro a ha
      simp only [decide_eq_true_eq]
      exact not_le_of_lt (hall a ha)
    constructor
    · simp [licenseSet, hnil]
    · simp [primaryLicense, hnil]

/-- Witness for C2: the spec's worked example mapping yields the set
(MIT, Apache-2.0) and primary license MIT. -/
theorem licensePolicy_spec_witness :
    licenseSet exampleConfidences = ["MIT".toList, "Apache-2.0".toList] ∧
    primaryLicense exampleConfidences = "MIT".toList :=
  ⟨by decide,
   (licensePolicy_spec exampleConfidences).2.1 ("MIT".toList, mkRat 95 100)
     (by decide) (by decide) (by decide)⟩

end Pantry
